import Mathlib

/-!
Shallow embedding of the duplicate-image finder (source file
`duplicate-finder.py` of the media-utility repository): the record data
model, the deletion executor, exact and similarity grouping, the
keep-selection policy, the two resolution workflows and the driving
`run` method, together with theorems settling the specification claims.

Modelling conventions, chosen once for the whole file:
* A record's content hash and perceptual fingerprint are data fields of
  the record (the source memoizes them on first access; under the
  single-threaded model the memoized value is a function of the file, so
  carrying it as a field is observation-equivalent).
* The perceptual fingerprint is `Option (List Bool)`: `none` plays the
  role of the falsy unavailable sentinel (the empty string set on a
  decode failure, or `None` when the hashing library is missing), and
  `some bits` is a 64-bit fingerprint.
* The similarity threshold `(100 - S) / 100 * 64` is kept as an exact
  rational.  For the integer `--similarity` values `0 ≤ S ≤ 100` accepted
  by the CLI and the integer Hamming distances `0 ≤ d ≤ 64`, the Python
  float differs from this rational by far less than the distance of the
  rational to any integer, so every comparison `distance <= threshold`
  agrees with the rational comparison.
* The filesystem is the list of paths currently on disk; `os.remove`
  succeeds exactly when the path is present and removes it, and raising
  is modelled by the error branch of the executor.
* Modification times are embedded as integers; the source only ever
  compares them, and the ordering of timestamps is preserved.
-/

/-- One scanned image file (source class `ImageFile`): `path` as its list
of path segments (`Path.parts`), `size` in bytes, `mtime` the
modification timestamp, `hash` the memoized content digest, `phash` the
memoized perceptual fingerprint with `none` as the unavailable sentinel,
and `dimensions` as the width-height pair. -/
structure ImageFile where
  path : List String
  size : Nat
  mtime : Int
  hash : String
  phash : Option (List Bool)
  dimensions : Nat × Nat
deriving DecidableEq

/-- Source property `ImageFile.pixels`: total number of pixels. -/
def ImageFile.pixels (img : ImageFile) : Nat :=
  img.dimensions.1 * img.dimensions.2

/-- Source property `ImageFile.path_depth`: number of path parts. -/
def ImageFile.path_depth (img : ImageFile) : Nat :=
  img.path.length

/-- Hamming distance between two fingerprints, the number of differing
bits (the `-` operator on `imagehash.ImageHash` values in the source). -/
def hamming (a b : List Bool) : Nat :=
  ((a.zip b).filter fun p => !(p.1 == p.2)).length

/-- The effective distance threshold of `find_similar_images`
(line 234): `(100 - similarity) / 100 * 64`, as an exact rational. -/
def threshold (S : ℚ) : ℚ :=
  (100 - S) / 100 * 64

/-- The `self.stats` counter dictionary of `DuplicateFinder`. -/
structure Stats where
  total_files : Nat
  total_size : Nat
  duplicate_files : Nat
  duplicate_size : Nat
  deleted_files : Nat
  deleted_size : Nat
  errors : Nat
deriving DecidableEq

/-- World state threaded through the engine: the paths currently present
on disk together with the run statistics. -/
structure FsState where
  disk : List (List String)
  stats : Stats
deriving DecidableEq

/-- One iteration of the loop body of `DuplicateFinder.delete_files`
(lines 405-419): in dry-run mode only the deleted counters move; in a
real run `os.remove` either removes the path and the counters move, or
raises, in which case only the error counter moves. -/
def deleteOne (dryRun : Bool) (st : FsState) (img : ImageFile) : FsState :=
  if dryRun then
    { st with stats := { st.stats with
        deleted_files := st.stats.deleted_files + 1,
        deleted_size := st.stats.deleted_size + img.size } }
  else if img.path ∈ st.disk then
    { disk := st.disk.erase img.path,
      stats := { st.stats with
        deleted_files := st.stats.deleted_files + 1,
        deleted_size := st.stats.deleted_size + img.size } }
  else
    { st with stats := { st.stats with errors := st.stats.errors + 1 } }

/-- `DuplicateFinder.delete_files` (lines 405-419): fold the per-file
deletion over the list. -/
def delete_files (dryRun : Bool) (files : List ImageFile) (st : FsState) : FsState :=
  files.foldl (deleteOne dryRun) st

/-- One `hash_map[file_hash].append(img)` step of
`find_exact_duplicates`: append the record to the group of its key,
inserting a fresh key at the end of the (insertion-ordered) map. -/
def addToGroup (m : List (String × List ImageFile)) (hk : String) (img : ImageFile) :
    List (String × List ImageFile) :=
  match m with
  | [] => [(hk, [img])]
  | (k, g) :: rest =>
    if k = hk then (k, g ++ [img]) :: rest else (k, g) :: addToGroup rest hk img

/-- The `hash_map` built by the loop of `find_exact_duplicates`
(lines 186-196), keyed by content hash in insertion order. -/
def buildHashMap (images : List ImageFile) : List (String × List ImageFile) :=
  images.foldl (fun m img => addToGroup m img.hash img) []

/-- `DuplicateFinder.find_exact_duplicates` (lines 182-199): the hash map
restricted to groups with more than one member. -/
def find_exact_duplicates (images : List ImageFile) :
    List (String × List ImageFile) :=
  (buildHashMap images).filter fun p => 1 < p.2.length

/-- The keyed `hash_map` of `find_similar_images` (lines 220-230):
records whose perceptual hash is truthy, in scan order, paired with
their fingerprint. -/
def keyedImages (images : List ImageFile) : List (ImageFile × List Bool) :=
  images.filterMap fun img => img.phash.map fun h => (img, h)

/-- The greedy anchor loop of `find_similar_images` (lines 233-256).
Each round takes the first unprocessed record as anchor, groups with it
every remaining unprocessed record within threshold distance of the
anchor, and emits the group when it has more than one member.  The
unprocessed records of the source's `processed`-set bookkeeping are
exactly the `far` remainder passed to the recursive call, in their
original order; the fuel argument, always instantiated with the list
length, only bounds the recursion (each round consumes the anchor). -/
def buildGroups (T : ℚ) : Nat → List (ImageFile × List Bool) → List (List ImageFile)
  | _, [] => []
  | 0, _ :: _ => []
  | fuel + 1, p :: rest =>
    let close := rest.filter fun q => decide ((hamming p.2 q.2 : ℚ) ≤ T)
    let far := rest.filter fun q => !decide ((hamming p.2 q.2 : ℚ) ≤ T)
    let group := p.1 :: close.map Prod.fst
    if 1 < group.length then group :: buildGroups T fuel far
    else buildGroups T fuel far

/-- `DuplicateFinder.find_similar_images` (lines 211-258), for a given
effective threshold `T`. -/
def find_similar_images (T : ℚ) (images : List ImageFile) :
    List (List ImageFile) :=
  buildGroups T (keyedImages images).length (keyedImages images)

/-- Python `max(group, key=f)`: the running best is replaced only by a
strictly larger key, so the first element attaining the maximum wins
ties.  `none` models the exception raised on an empty sequence. -/
def maxBy {β : Type} [LinearOrder β] (f : ImageFile → β) :
    List ImageFile → Option ImageFile
  | [] => none
  | x :: xs => some (xs.foldl (fun b y => if f b < f y then y else b) x)

/-- Python `min(group, key=f)`: the running best is replaced only by a
strictly smaller key, so the first element attaining the minimum wins
ties. -/
def minBy {β : Type} [LinearOrder β] (f : ImageFile → β) :
    List ImageFile → Option ImageFile
  | [] => none
  | x :: xs => some (xs.foldl (fun b y => if f y < f b then y else b) x)

/-- `DuplicateFinder.select_file_to_keep` (lines 260-276): the strategy
dispatch, with the trailing `else` falling back to the largest file. -/
def select_file_to_keep (strategy : String) (group : List ImageFile) :
    Option ImageFile :=
  if strategy = "largest" then maxBy ImageFile.size group
  else if strategy = "highest-res" then maxBy ImageFile.pixels group
  else if strategy = "oldest" then minBy ImageFile.mtime group
  else if strategy = "newest" then maxBy ImageFile.mtime group
  else if strategy = "shortest-path" then minBy ImageFile.path_depth group
  else maxBy ImageFile.size group

/-- The per-group delete list of `process_duplicates_auto`
(lines 379-380 and 387-388): every member other than the kept one.  The
`none` branch is unreachable for the nonempty groups the workflow
produces. -/
def group_to_delete (strategy : String) (group : List ImageFile) :
    List ImageFile :=
  match select_file_to_keep strategy group with
  | some keep => group.filter fun img => !(img == keep)
  | none => []

/-- The `all_to_delete` accumulator of `process_duplicates_auto`
(lines 375-391): the concatenated delete lists of all exact groups
followed by all similar groups. -/
def all_to_delete (strategy : String)
    (duplicates : List (String × List ImageFile))
    (similar_groups : List (List ImageFile)) : List ImageFile :=
  ((duplicates.map Prod.snd ++ similar_groups).map
    (group_to_delete strategy)).flatten

/-- `DuplicateFinder.process_duplicates_auto` (lines 365-403):
`userConfirms` is the truth of `input(...) == readYes` at the single
confirmation prompt, consulted only when `--yes` is absent and there is
something to delete. -/
def process_duplicates_auto (strategy : String) (yes dryRun userConfirms : Bool)
    (duplicates : List (String × List ImageFile))
    (similar_groups : List (List ImageFile)) (st : FsState) : FsState :=
  if duplicates.length + similar_groups.length = 0 then st
  else
    let toDel := all_to_delete strategy duplicates similar_groups
    if toDel.isEmpty then st
    else if !yes && !userConfirms then st
    else delete_files dryRun toDel st

/-- One line of user input at the interactive prompt: `quit` is the
letter q, `skip` the letter s, `num n` a digit string with value `n`,
and `other` any other reply. -/
inductive Choice where
  | quit : Choice
  | skip : Choice
  | num : Nat → Choice
  | other : Choice
deriving DecidableEq

/-- The delete list of a valid numeric reply `n` (lines 326-327): every
member except the one at index `n - 1`. -/
def keep_choice (group : List ImageFile) (n : Nat) : List ImageFile :=
  (group.enum.filter fun p => !(p.1 == n - 1)).map Prod.snd

/-- The `while True` prompt loop run for one group in
`process_duplicates_interactive` (lines 316-332 and 345-361): consume
replies until one resolves the group.  `none` means the whole procedure
returns (the user quit; an exhausted reply script is modelled the same
way, and is unreachable under the well-formed scripts used below),
`some (rest, st)` means processing continues with the unconsumed
replies. -/
def processGroupLoop (dryRun : Bool) (group : List ImageFile) :
    List Choice → FsState → Option (List Choice × FsState)
  | [], _ => none
  | c :: rest, st =>
    match c with
    | Choice.quit => none
    | Choice.skip => some (rest, st)
    | Choice.num n =>
      if 1 ≤ n ∧ n ≤ group.length then
        some (rest, delete_files dryRun (keep_choice group n) st)
      else processGroupLoop dryRun group rest st
    | Choice.other => processGroupLoop dryRun group rest st

/-- The group-by-group drive of `process_duplicates_interactive`: thread
the reply script and the state through the groups; a `none` from the
prompt loop aborts the remaining groups with the state reached so far. -/
def processGroupsAux (dryRun : Bool) :
    List (List ImageFile) → List Choice → FsState →
    FsState × Option (List Choice)
  | [], inputs, st => (st, some inputs)
  | g :: gs, inputs, st =>
    match processGroupLoop dryRun g inputs st with
    | none => (st, none)
    | some (rest, st₁) => processGroupsAux dryRun gs rest st₁

/-- `DuplicateFinder.process_duplicates_interactive` (lines 293-363):
exact groups first, then similar groups, each resolved through the
prompt loop.  The suggested-keep computation of the source is display
only and does not affect the state. -/
def process_duplicates_interactive (dryRun : Bool)
    (duplicates : List (String × List ImageFile))
    (similar_groups : List (List ImageFile))
    (inputs : List Choice) (st : FsState) : FsState :=
  if duplicates.length + similar_groups.length = 0 then st
  else (processGroupsAux dryRun (duplicates.map Prod.snd ++ similar_groups)
          inputs st).1

/-- The engine-relevant command-line arguments (source `parse_arguments`,
lines 469-524). -/
structure Args where
  similar : Bool
  similarity : ℚ
  interactive : Bool
  keep : String
  dry_run : Bool
  yes : Bool

/-- The duplicate-statistics accumulation of `find_exact_duplicates`
(lines 202-205): every member after the first of each group counts as a
duplicate file of its size. -/
def dupStats (duplicates : List (String × List ImageFile)) (st : FsState) :
    FsState :=
  duplicates.foldl (fun s p =>
    (p.2.drop 1).foldl (fun s₂ img =>
      { s₂ with stats := { s₂.stats with
          duplicate_files := s₂.stats.duplicate_files + 1,
          duplicate_size := s₂.stats.duplicate_size + img.size } }) s) st

/-- `DuplicateFinder.run` (lines 435-466) from the point where the
scanner collaborator has produced `all_images`: exact grouping always,
similarity grouping over the same record list when `--similar` is set,
then one of the two workflows, then the summary.  The boolean result
records whether the summary block is reached (`false` exactly on the
empty-scan early return of lines 448-450). -/
def run (args : Args) (all_images : List ImageFile) (inputs : List Choice)
    (userConfirms : Bool) (st : FsState) : FsState × Bool :=
  if all_images.isEmpty then (st, false)
  else
    let dups := find_exact_duplicates all_images
    let st₁ := dupStats dups st
    let sims := if args.similar then
        find_similar_images (threshold args.similarity) all_images
      else []
    let st₂ := if args.interactive then
        process_duplicates_interactive args.dry_run dups sims inputs st₁
      else
        process_duplicates_auto args.keep args.yes args.dry_run userConfirms
          dups sims st₁
    (st₂, true)

/-! ### Sample records used in concrete scenarios -/

/-- The all-zero 64-bit fingerprint. -/
def fpZero : List Bool := List.replicate 64 false

/-- A 64-bit fingerprint differing from `fpZero` in exactly 4 bits. -/
def fpFour : List Bool := List.replicate 4 true ++ List.replicate 60 false

/-- Sample record: 200-byte file with content hash `h0`. -/
def imgA : ImageFile :=
  ⟨[("a.jpg")], 200, 0, ("h0"), some fpZero, (10, 10)⟩

/-- Sample record: 100-byte file with the same content hash and the same
fingerprint as `imgA`. -/
def imgB : ImageFile :=
  ⟨[("b.jpg")], 100, 0, ("h0"), some fpZero, (10, 10)⟩

/-- Sample record with fingerprint `fpZero` and its own content hash. -/
def imgP : ImageFile :=
  ⟨[("p.jpg")], 200, 0, ("hp"), some fpZero, (10, 10)⟩

/-- Sample record whose fingerprint differs from `imgP`'s in 4 bits. -/
def imgQ : ImageFile :=
  ⟨[("q.jpg")], 100, 0, ("hq"), some fpFour, (10, 10)⟩

/-- Starting state: `a.jpg` and `b.jpg` on disk, all counters zero. -/
def stZero : FsState :=
  ⟨[[("a.jpg")], [("b.jpg")]], ⟨0, 0, 0, 0, 0, 0, 0⟩⟩

/-! ### The deletion executor -/

/-- In dry-run mode the executor leaves the disk alone and advances the
deleted counters by one file and its size per record. -/
theorem delete_files_dry (files : List ImageFile) (st : FsState) :
    delete_files true files st =
      ⟨st.disk, { st.stats with
        deleted_files := st.stats.deleted_files + files.length,
        deleted_size := st.stats.deleted_size + (files.map ImageFile.size).sum }⟩ := by
  induction files generalizing st with
  | nil => simp [delete_files]
  | cons f fs ih =>
    have hstep : delete_files true (f :: fs) st
        = delete_files true fs (deleteOne true st f) := rfl
    rw [hstep, ih]
    simp only [deleteOne, if_true, List.length_cons, List.map_cons,
      List.sum_cons, FsState.mk.injEq, Stats.mk.injEq, true_and, and_true,
      eq_self_iff_true]
    all_goals omega

/-- In a real run on records with pairwise distinct paths that are all
present on disk, every removal succeeds and the deleted counters advance
exactly as in a dry run, with no error. -/
theorem delete_files_real (files : List ImageFile) (st : FsState)
    (hnd : (files.map ImageFile.path).Nodup)
    (hmem : ∀ f ∈ files, f.path ∈ st.disk) :
    (delete_files false files st).stats.deleted_files
        = st.stats.deleted_files + files.length ∧
    (delete_files false files st).stats.deleted_size
        = st.stats.deleted_size + (files.map ImageFile.size).sum ∧
    (delete_files false files st).stats.errors = st.stats.errors := by
  induction files generalizing st with
  | nil => simp [delete_files]
  | cons f fs ih =>
    have hf : f.path ∈ st.disk := hmem f (by simp)
    have hstep : delete_files false (f :: fs) st
        = delete_files false fs (deleteOne false st f) := rfl
    have hdisk : (deleteOne false st f).disk = st.disk.erase f.path := by
      simp [deleteOne, hf]
    have hdf : (deleteOne false st f).stats.deleted_files
        = st.stats.deleted_files + 1 := by
      simp [deleteOne, hf]
    have hds : (deleteOne false st f).stats.deleted_size
        = st.stats.deleted_size + f.size := by
      simp [deleteOne, hf]
    have herr : (deleteOne false st f).stats.errors = st.stats.errors := by
      simp [deleteOne, hf]
    rw [List.map_cons] at hnd
    have hcons := List.nodup_cons.mp hnd
    have hmem₂ : ∀ g ∈ fs, g.path ∈ (deleteOne false st f).disk := by
      intro g hg
      rw [hdisk]
      have hne : g.path ≠ f.path := by
        intro he
        exact hcons.1 (he ▸ List.mem_map_of_mem ImageFile.path hg)
      exact (List.mem_erase_of_ne hne).2 (hmem g (List.mem_cons_of_mem _ hg))
    obtain ⟨e₁, e₂, e₃⟩ := ih (deleteOne false st f) hcons.2 hmem₂
    rw [hstep]
    refine ⟨?_, ?_, ?_⟩
    · rw [e₁, hdf]; simp only [List.length_cons]; omega
    · rw [e₂, hds]; simp only [List.map_cons, List.sum_cons]; omega
    · rw [e₃, herr]

/-- C1, counterexample: with `b.jpg` on disk once and the same record
listed twice, a dry run counts two deleted files but a real run on the
same list counts one deletion and one error, so the deleted counters of
dry-run and non-dry-run executions are not always equal. -/
theorem C1_counterexample :
    (delete_files true [imgB, imgB] stZero).stats.deleted_files = 2 ∧
    (delete_files false [imgB, imgB] stZero).stats.deleted_files = 1 ∧
    (delete_files false [imgB, imgB] stZero).stats.errors = 1 ∧
    (2 : Nat) ≠ 1 := by
  decide

/-- C1, amended: for every record list, dry-run `delete_files` performs
no filesystem mutation, leaves the error counter alone, and adds one
deleted file and its size per record; these counter increments equal the
ones of a non-dry-run execution on the same list whenever that execution
removes every record successfully (pairwise distinct paths, all present
on disk). -/
theorem C1_amended (files : List ImageFile) (st : FsState) :
    (delete_files true files st).disk = st.disk ∧
    (delete_files true files st).stats.deleted_files
        = st.stats.deleted_files + files.length ∧
    (delete_files true files st).stats.deleted_size
        = st.stats.deleted_size + (files.map ImageFile.size).sum ∧
    (delete_files true files st).stats.errors = st.stats.errors ∧
    ((files.map ImageFile.path).Nodup → (∀ f ∈ files, f.path ∈ st.disk) →
      (delete_files false files st).stats.deleted_files
          = st.stats.deleted_files + files.length ∧
      (delete_files false files st).stats.deleted_size
          = st.stats.deleted_size + (files.map ImageFile.size).sum) := by
  refine ⟨?_, ?_, ?_, ?_, ?_⟩
  · rw [delete_files_dry]
  · rw [delete_files_dry]
  · rw [delete_files_dry]
  · rw [delete_files_dry]
  · intro hnd hmem
    exact ⟨(delete_files_real files st hnd hmem).1,
           (delete_files_real files st hnd hmem).2.1⟩

/-- C1 amended, witness at a concrete input: one present record. -/
theorem C1_witness :
    (delete_files true [imgA] stZero).disk = stZero.disk ∧
    (delete_files false [imgA] stZero).stats.deleted_files = 1 := by
  have h := C1_amended [imgA] stZero
  refine ⟨h.1, ?_⟩
  have h₂ := h.2.2.2.2 (by decide) (by decide)
  simpa using h₂.1

/-- C7: in automatic mode with the `--yes` flag absent, a declined
confirmation leaves the whole state (disk and every counter) unchanged,
whatever the pending groups are: no subset of the delete list is
applied. -/
theorem C7_thm (strategy : String) (dryRun : Bool)
    (duplicates : List (String × List ImageFile))
    (similar_groups : List (List ImageFile)) (st : FsState) :
    process_duplicates_auto strategy false dryRun false
      duplicates similar_groups st = st := by
  unfold process_duplicates_auto
  split
  · rfl
  · simp

/-! ### Two-record similarity behavior -/

/-- On a two-record input with valid fingerprints, the grouper emits the
pair exactly when the Hamming distance is within the threshold. -/
theorem buildGroups_pair (T : ℚ) (a b : ImageFile) (fa fb : List Bool)
    (hap : a.phash = some fa) (hbp : b.phash = some fb) :
    (((hamming fa fb : ℚ) ≤ T) → find_similar_images T [a, b] = [[a, b]]) ∧
    (¬((hamming fa fb : ℚ) ≤ T) → find_similar_images T [a, b] = []) := by
  have hk : keyedImages [a, b] = [(a, fa), (b, fb)] := by
    simp [keyedImages, hap, hbp]
  constructor
  · intro hd
    show buildGroups T (keyedImages [a, b]).length (keyedImages [a, b]) = _
    rw [hk]
    simp [buildGroups, hd]
  · intro hd
    show buildGroups T (keyedImages [a, b]).length (keyedImages [a, b]) = _
    rw [hk]
    simp [buildGroups, hd]

/-- C2, counterexample: raising `--similarity` from 90 to 95 lowers the
threshold (6.4 to 3.2) rather than raising it, and the two 4-bit-apart
records form a group at similarity 90 that is contained in no group at
similarity 95 — the group count drops from one to zero. -/
theorem C2_counterexample :
    (90 : ℚ) < 95 ∧
    threshold 95 < threshold 90 ∧
    find_similar_images (threshold 90) [imgP, imgQ] = [[imgP, imgQ]] ∧
    find_similar_images (threshold 95) [imgP, imgQ] = [] := by
  have h₄ : hamming fpZero fpFour = 4 := by decide
  have hle : ((hamming fpZero fpFour : ℚ)) ≤ threshold 90 := by
    rw [h₄]; norm_num [threshold]
  have hnle : ¬((hamming fpZero fpFour : ℚ) ≤ threshold 95) := by
    rw [h₄]; norm_num [threshold]
  refine ⟨by norm_num, by norm_num [threshold], ?_, ?_⟩
  · exact (buildGroups_pair (threshold 90) imgP imgQ fpZero fpFour rfl rfl).1 hle
  · exact (buildGroups_pair (threshold 95) imgP imgQ fpZero fpFour rfl rfl).2 hnle

/-- C2, amended: raising `--similarity` strictly lowers the effective
distance threshold `T = (100 - S) / 100 * 64`; in consequence similarity
groups can shrink or disappear and the group count can fall (see the
counterexample), so no containment of groups holds in either direction. -/
theorem C2_amended (S₁ S₂ : ℚ) (h : S₁ < S₂) :
    threshold S₂ < threshold S₁ := by
  unfold threshold
  linarith

/-- C2 amended, witness: the threshold at similarity 95 is below the one
at similarity 90. -/
theorem C2_witness : threshold 95 < threshold 90 :=
  C2_amended 90 95 (by norm_num)

/-- C3: the effective threshold is exactly `(100 - S) / 100 * 64`; a pair
of records with valid fingerprints is grouped precisely when its Hamming
distance is at most the threshold; and on two fingerprints 4 bits apart,
similarity 95 (threshold 3.2) does not group them while similarity 90
(threshold 6.4) does. -/
theorem C3_thm :
    (∀ S : ℚ, threshold S = (100 - S) / 100 * 64) ∧
    (∀ (T : ℚ) (a b : ImageFile) (fa fb : List Bool),
      a.phash = some fa → b.phash = some fb →
      (((hamming fa fb : ℚ) ≤ T → find_similar_images T [a, b] = [[a, b]]) ∧
       (¬((hamming fa fb : ℚ) ≤ T) → find_similar_images T [a, b] = []))) ∧
    hamming fpZero fpFour = 4 ∧
    threshold 95 = 16 / 5 ∧
    threshold 90 = 32 / 5 ∧
    find_similar_images (threshold 95) [imgP, imgQ] = [] ∧
    find_similar_images (threshold 90) [imgP, imgQ] = [[imgP, imgQ]] := by
  have h₄ : hamming fpZero fpFour = 4 := by decide
  refine ⟨fun S => rfl, ?_, h₄, by norm_num [threshold], by norm_num [threshold],
    ?_, ?_⟩
  · intro T a b fa fb hap hbp
    exact buildGroups_pair T a b fa fb hap hbp
  · refine (buildGroups_pair (threshold 95) imgP imgQ fpZero fpFour rfl rfl).2 ?_
    rw [h₄]; norm_num [threshold]
  · refine (buildGroups_pair (threshold 90) imgP imgQ fpZero fpFour rfl rfl).1 ?_
    rw [h₄]; norm_num [threshold]

/-- C3, witness: the pairwise criterion applied at a concrete input, with
its fingerprint hypotheses discharged. -/
theorem C3_witness : find_similar_images (threshold 90) [imgP, imgQ]
    = [[imgP, imgQ]] := by
  have h := (C3_thm.2.1 (threshold 90) imgP imgQ fpZero fpFour rfl rfl).1
  refine h ?_
  have h₄ : hamming fpZero fpFour = 4 := by decide
  rw [h₄]; norm_num [threshold]

/-! ### Exact grouping -/

/-- Ordered-map lookup by key (Python dict access on the hash map). -/
def lookupKey (q : String) : List (String × List ImageFile) → Option (List ImageFile)
  | [] => none
  | (k, g) :: rest => if k = q then some g else lookupKey q rest

/-- Appending a record under key `hk` extends exactly the group of `hk`,
creating it if absent, and leaves every other key's group alone. -/
theorem lookupKey_addToGroup (q hk : String) (img : ImageFile)
    (m : List (String × List ImageFile)) :
    lookupKey q (addToGroup m hk img)
      = if hk = q then some ((lookupKey q m).getD [] ++ [img])
        else lookupKey q m := by
  induction m with
  | nil =>
    by_cases h : hk = q <;> simp [addToGroup, lookupKey, h]
  | cons p rest ih =>
    obtain ⟨k, g⟩ := p
    by_cases hk₁ : k = hk
    · subst hk₁
      by_cases h₂ : k = q
      · subst h₂
        simp [addToGroup, lookupKey]
      · simp [addToGroup, lookupKey, h₂, Ne.symm (fun he => h₂ he.symm)]
    · by_cases h₂ : k = q
      · subst h₂
        have hne : hk ≠ k := fun he => hk₁ he.symm
        simp [addToGroup, lookupKey, hk₁, hne]
      · simp [addToGroup, lookupKey, hk₁, h₂, ih]

/-- Folding the insertion loop over the scan appends, under each key, the
records bearing that hash in scan order. -/
theorem lookupKey_buildFold (l : List ImageFile) (q : String) :
    ∀ acc, lookupKey q (l.foldl (fun m img => addToGroup m img.hash img) acc)
      = match lookupKey q acc with
        | some g => some (g ++ l.filter fun i => i.hash = q)
        | none =>
          if (l.filter fun i => i.hash = q).isEmpty then none
          else some (l.filter fun i => i.hash = q) := by
  induction l with
  | nil =>
    intro acc
    cases h : lookupKey q acc <;> simp [h]
  | cons i tl ih =>
    intro acc
    have hstep : (i :: tl).foldl (fun m img => addToGroup m img.hash img) acc
        = tl.foldl (fun m img => addToGroup m img.hash img)
            (addToGroup acc i.hash i) := rfl
    rw [hstep, ih (addToGroup acc i.hash i)]
    rw [lookupKey_addToGroup]
    by_cases hq : i.hash = q
    · cases h : lookupKey q acc with
      | none => simp [h, hq, List.filter_cons]
      | some g => simp [h, hq, List.filter_cons]
    · cases h : lookupKey q acc with
      | none => simp [h, hq, List.filter_cons]
      | some g => simp [h, hq, List.filter_cons]

/-- A key absent from the map looks up to nothing. -/
theorem lookupKey_eq_none (q : String) (m : List (String × List ImageFile))
    (h : q ∉ m.map Prod.fst) : lookupKey q m = none := by
  induction m with
  | nil => rfl
  | cons p rest ih =>
    obtain ⟨k, g⟩ := p
    simp only [List.map_cons, List.mem_cons, not_or] at h
    have hne : ¬k = q := fun he => h.1 he.symm
    simp [lookupKey, hne, ih h.2]

/-- Inserting under a key either keeps the key list or appends the fresh
key at the end. -/
theorem keys_addToGroup (m : List (String × List ImageFile)) (hk : String)
    (img : ImageFile) :
    (addToGroup m hk img).map Prod.fst
      = if hk ∈ m.map Prod.fst then m.map Prod.fst
        else m.map Prod.fst ++ [hk] := by
  induction m with
  | nil => simp [addToGroup]
  | cons p rest ih =>
    obtain ⟨k, g⟩ := p
    by_cases h : k = hk
    · subst h
      simp [addToGroup]
    · have hne : hk ≠ k := fun he => h he.symm
      by_cases h₂ : hk ∈ rest.map Prod.fst <;>
        simp [addToGroup, h, ih, h₂, hne]

/-- The hash map built by the scan has pairwise distinct keys. -/
theorem keysNodup_buildHashMap (images : List ImageFile) :
    ((buildHashMap images).map Prod.fst).Nodup := by
  suffices h : ∀ acc : List (String × List ImageFile), (acc.map Prod.fst).Nodup →
      ((images.foldl (fun m img => addToGroup m img.hash img) acc).map
        Prod.fst).Nodup by
    exact h [] (by simp)
  induction images with
  | nil => intro acc hacc; exact hacc
  | cons i tl ih =>
    intro acc hacc
    have hstep : (i :: tl).foldl (fun m img => addToGroup m img.hash img) acc
        = tl.foldl (fun m img => addToGroup m img.hash img)
            (addToGroup acc i.hash i) := rfl
    rw [hstep]
    refine ih _ ?_
    rw [keys_addToGroup]
    by_cases h : i.hash ∈ acc.map Prod.fst
    · simpa [h] using hacc
    · rw [if_neg h]
      rw [List.nodup_append]
      refine ⟨hacc, List.nodup_singleton _, ?_⟩
      intro a ha hb
      rw [List.mem_singleton] at hb
      exact h (hb ▸ ha)

/-- Restricting a distinct-keyed map to large groups acts on each key's
lookup as the corresponding filter on its group. -/
theorem lookupKey_filterBig (q : String) (m : List (String × List ImageFile))
    (hnd : (m.map Prod.fst).Nodup) :
    lookupKey q (m.filter fun p => 1 < p.2.length)
      = (lookupKey q m).bind fun g => if 1 < g.length then some g else none := by
  induction m with
  | nil => simp [lookupKey]
  | cons p rest ih =>
    obtain ⟨k, g⟩ := p
    rw [List.map_cons] at hnd
    have hc := List.nodup_cons.mp hnd
    by_cases hkq : k = q
    · subst hkq
      by_cases hg : 1 < g.length
      · simp [List.filter_cons, hg, lookupKey]
      · have habs : lookupKey k (rest.filter fun p => 1 < p.2.length) = none := by
          refine lookupKey_eq_none k _ fun hmem => hc.1 ?_
          have hsub : List.Sublist
              ((rest.filter fun p => 1 < p.2.length).map Prod.fst)
              (rest.map Prod.fst) := (List.filter_sublist rest).map Prod.fst
          exact hsub.mem hmem
        simp [List.filter_cons, hg, lookupKey, habs]
    · by_cases hg : 1 < g.length
      · simp [List.filter_cons, hg, lookupKey, hkq, ih hc.2]
      · simp [List.filter_cons, hg, lookupKey, hkq, ih hc.2]

/-- C5: the exact grouper maps each content hash to exactly the records
bearing that hash, in first-seen scan order, and only when at least two
records bear it; being a pure function of the record list, running it
twice on the same list yields identical groups. -/
theorem C5_thm (images : List ImageFile) (q : String) :
    lookupKey q (find_exact_duplicates images)
      = (if 2 ≤ (images.filter fun i => i.hash = q).length
         then some (images.filter fun i => i.hash = q) else none) ∧
    find_exact_duplicates images = find_exact_duplicates images := by
  refine ⟨?_, rfl⟩
  have h₂ := lookupKey_filterBig q (buildHashMap images)
    (keysNodup_buildHashMap images)
  have h₁ := lookupKey_buildFold images q []
  have hb : lookupKey q (buildHashMap images)
      = if (images.filter fun i => i.hash = q).isEmpty then none
        else some (images.filter fun i => i.hash = q) := by
    simpa [buildHashMap, lookupKey] using h₁
  show lookupKey q ((buildHashMap images).filter fun p => 1 < p.2.length) = _
  rw [h₂, hb]
  by_cases he : (images.filter fun i => i.hash = q).isEmpty
  · have hlen : (images.filter fun i => i.hash = q).length = 0 := by
      simpa [List.isEmpty_iff] using he
    simp [he, hlen]
  · simp only [he, if_false, Option.bind_some]
    rfl

/-- C5, witness: the hash shared by `imgA` and `imgB` looks up to exactly
that pair, in scan order, on a concrete three-record scan. -/
theorem C5_witness :
    lookupKey ("h0") (find_exact_duplicates [imgA, imgP, imgB])
      = some [imgA, imgB] := by
  have h := (C5_thm [imgA, imgP, imgB] ("h0")).1
  rw [h]
  decide

/-! ### Keep selection -/

/-- Head step of `find?` when the head satisfies the predicate. -/
theorem findQ_cons_pos {α : Type} (p : α → Bool) (a : α) (l : List α)
    (h : p a = true) : (a :: l).find? p = some a := by
  simp [List.find?, h]

/-- Head step of `find?` when the head fails the predicate. -/
theorem findQ_cons_neg {α : Type} (p : α → Bool) (a : α) (l : List α)
    (h : p a = false) : (a :: l).find? p = l.find? p := by
  simp [List.find?, h]

/-- `find?` only inspects the predicate on list members. -/
theorem findQ_congr {α : Type} (l : List α) (p q : α → Bool)
    (h : ∀ a ∈ l, p a = q a) : l.find? p = l.find? q := by
  induction l with
  | nil => rfl
  | cons x xs ih =>
    have hx := h x (by simp)
    cases hpx : p x with
    | true =>
      rw [findQ_cons_pos p x xs hpx, findQ_cons_pos q x xs (hx.symm.trans hpx)]
    | false =>
      rw [findQ_cons_neg p x xs hpx, findQ_cons_neg q x xs (hx.symm.trans hpx),
        ih fun a ha => h a (List.mem_cons_of_mem _ ha)]

/-- The strict-improvement fold of Python `max(..., key=f)` returns the
first element attaining the maximum key. -/
theorem maxBy_eq_findQ {β : Type} [LinearOrder β] (f : ImageFile → β)
    (x : ImageFile) (xs : List ImageFile) :
    (x :: xs).find? (fun y => (x :: xs).all fun z => decide (f z ≤ f y))
      = some (xs.foldl (fun b y => if f b < f y then y else b) x) := by
  induction xs generalizing x with
  | nil =>
    rw [List.foldl_nil]
    refine findQ_cons_pos _ x [] ?_
    simp
  | cons y ys ih =>
    rw [List.foldl_cons]
    by_cases hxy : f x < f y
    · rw [if_pos hxy, ← ih y]
      have hx : ((x :: y :: ys).all fun z => decide (f z ≤ f x)) = false := by
        refine Bool.eq_false_iff.mpr fun hT => ?_
        rw [List.all_eq_true] at hT
        exact absurd (of_decide_eq_true (hT y (by simp))) (not_le.mpr hxy)
      rw [findQ_cons_neg _ x (y :: ys) hx]
      refine findQ_congr _ _ _ fun a _ => ?_
      apply Bool.coe_iff_coe.mp
      simp only [List.all_eq_true, decide_eq_true_eq]
      constructor
      · intro hall z hz
        exact hall z (List.mem_cons_of_mem _ hz)
      · intro hall z hz
        rcases List.mem_cons.mp hz with hz | hz
        · subst hz
          exact hxy.le.trans (hall y (by simp))
        · exact hall z hz
    · rw [if_neg hxy, ← ih x]
      push_neg at hxy
      have hxeq : ((x :: y :: ys).all fun z => decide (f z ≤ f x))
          = ((x :: ys).all fun z => decide (f z ≤ f x)) := by
        apply Bool.coe_iff_coe.mp
        simp only [List.all_eq_true, decide_eq_true_eq]
        constructor
        · intro hall z hz
          refine hall z ?_
          rcases List.mem_cons.mp hz with hz | hz
          · simp [hz]
          · simp [hz]
        · intro hall z hz
          rcases List.mem_cons.mp hz with hz | hz
          · subst hz
            exact le_refl _
          rcases List.mem_cons.mp hz with hz | hz
          · subst hz
            exact hxy
          · exact hall z (by simp [hz])
      cases hhead : ((x :: ys).all fun z => decide (f z ≤ f x)) with
      | true =>
        rw [findQ_cons_pos _ x (y :: ys) (hxeq.trans hhead),
          findQ_cons_pos _ x ys hhead]
      | false =>
        rw [findQ_cons_neg _ x (y :: ys) (hxeq.trans hhead),
          findQ_cons_neg _ x ys hhead]
        have hytest : ((x :: y :: ys).all fun z => decide (f z ≤ f y)) = false := by
          refine Bool.eq_false_iff.mpr fun hT => ?_
          rw [List.all_eq_true] at hT
          have hfeq : f y = f x :=
            le_antisymm hxy (of_decide_eq_true (hT x (by simp)))
          have hT₂ : ((x :: ys).all fun z => decide (f z ≤ f x)) = true := by
            rw [List.all_eq_true]
            intro z hz
            rcases List.mem_cons.mp hz with hz | hz
            · subst hz
              simp
            · exact decide_eq_true
                ((of_decide_eq_true (hT z (by simp [hz]))).trans hfeq.le)
          exact Bool.noConfusion (hT₂.symm.trans hhead)
        rw [findQ_cons_neg _ y ys hytest]
        refine findQ_congr _ _ _ fun a _ => ?_
        apply Bool.coe_iff_coe.mp
        simp only [List.all_eq_true, decide_eq_true_eq]
        constructor
        · intro hall z hz
          refine hall z ?_
          rcases List.mem_cons.mp hz with hz | hz
          · simp [hz]
          · simp [hz]
        · intro hall z hz
          rcases List.mem_cons.mp hz with hz | hz
          · rw [hz]
            exact hall x (by simp)
          rcases List.mem_cons.mp hz with hz | hz
          · rw [hz]
            exact hxy.trans (hall x (by simp))
          · exact hall z (by simp [hz])

/-- The strict-improvement fold of Python `min(..., key=f)` returns the
first element attaining the minimum key. -/
theorem minBy_eq_findQ {β : Type} [LinearOrder β] (f : ImageFile → β)
    (x : ImageFile) (xs : List ImageFile) :
    (x :: xs).find? (fun y => (x :: xs).all fun z => decide (f y ≤ f z))
      = some (xs.foldl (fun b y => if f y < f b then y else b) x) := by
  have h := maxBy_eq_findQ (β := βᵒᵈ) (fun i => OrderDual.toDual (f i)) x xs
  simpa [OrderDual.toDual_le_toDual, OrderDual.toDual_lt_toDual] using h

/-- The maximum fold stays inside the candidate list. -/
theorem foldlMax_mem {β : Type} [LinearOrder β] (f : ImageFile → β)
    (x : ImageFile) (xs : List ImageFile) :
    xs.foldl (fun b y => if f b < f y then y else b) x ∈ x :: xs := by
  induction xs generalizing x with
  | nil => simp
  | cons y ys ih =>
    rw [List.foldl_cons]
    have h := ih (if f x < f y then y else x)
    rcases List.mem_cons.mp h with h | h
    · rw [h]
      by_cases hxy : f x < f y
      · simp [hxy]
      · simp [hxy]
    · simp [h]

/-- The minimum fold stays inside the candidate list. -/
theorem foldlMin_mem {β : Type} [LinearOrder β] (f : ImageFile → β)
    (x : ImageFile) (xs : List ImageFile) :
    xs.foldl (fun b y => if f y < f b then y else b) x ∈ x :: xs := by
  induction xs generalizing x with
  | nil => simp
  | cons y ys ih =>
    rw [List.foldl_cons]
    have h := ih (if f y < f x then y else x)
    rcases List.mem_cons.mp h with h | h
    · rw [h]
      by_cases hxy : f y < f x
      · simp [hxy]
      · simp [hxy]
    · simp [h]

/-- Whatever the strategy, the selected survivor is a member of the
group. -/
theorem select_file_to_keep_mem (strategy : String) (group : List ImageFile)
    (k : ImageFile) (h : select_file_to_keep strategy group = some k) :
    k ∈ group := by
  cases group with
  | nil =>
    unfold select_file_to_keep at h
    split_ifs at h <;> simp [maxBy, minBy] at h
  | cons x xs =>
    unfold select_file_to_keep at h
    split_ifs at h <;>
      first
        | (simp only [maxBy, Option.some.injEq] at h
           exact h ▸ foldlMax_mem _ x xs)
        | (simp only [minBy, Option.some.injEq] at h
           exact h ▸ foldlMin_mem _ x xs)

/-- C6: for every group, each named strategy returns the first member
attaining the extremal key (maximum size, maximum pixel count, minimum
or maximum modification time, minimum path depth), ties resolved in
favour of the earliest member in the group's stored order; any unknown
strategy name behaves exactly like `largest`; and the selector is a pure
function, so repeated calls return the same record. -/
theorem C6_thm (group : List ImageFile) :
    select_file_to_keep ("largest") group
      = group.find? (fun y => group.all fun z => decide (z.size ≤ y.size)) ∧
    select_file_to_keep ("highest-res") group
      = group.find? (fun y => group.all fun z => decide (z.pixels ≤ y.pixels)) ∧
    select_file_to_keep ("oldest") group
      = group.find? (fun y => group.all fun z => decide (y.mtime ≤ z.mtime)) ∧
    select_file_to_keep ("newest") group
      = group.find? (fun y => group.all fun z => decide (z.mtime ≤ y.mtime)) ∧
    select_file_to_keep ("shortest-path") group
      = group.find? (fun y => group.all fun z =>
          decide (y.path_depth ≤ z.path_depth)) ∧
    (∀ s : String,
      s ∉ (["largest", "highest-res", "oldest", "newest",
            "shortest-path"] : List String) →
      select_file_to_keep s group = select_file_to_keep ("largest") group) ∧
    (∀ s : String, select_file_to_keep s group = select_file_to_keep s group) := by
  refine ⟨?_, ?_, ?_, ?_, ?_, ?_, fun s => rfl⟩
  · have hsel : select_file_to_keep ("largest") group
        = maxBy ImageFile.size group := by
      simp [select_file_to_keep]
    rw [hsel]
    cases group with
    | nil => rfl
    | cons x xs => exact (maxBy_eq_findQ ImageFile.size x xs).symm
  · have hsel : select_file_to_keep ("highest-res") group
        = maxBy ImageFile.pixels group := by
      simp [select_file_to_keep]
    rw [hsel]
    cases group with
    | nil => rfl
    | cons x xs => exact (maxBy_eq_findQ ImageFile.pixels x xs).symm
  · have hsel : select_file_to_keep ("oldest") group
        = minBy ImageFile.mtime group := by
      simp [select_file_to_keep]
    rw [hsel]
    cases group with
    | nil => rfl
    | cons x xs => exact (minBy_eq_findQ ImageFile.mtime x xs).symm
  · have hsel : select_file_to_keep ("newest") group
        = maxBy ImageFile.mtime group := by
      simp [select_file_to_keep]
    rw [hsel]
    cases group with
    | nil => rfl
    | cons x xs => exact (maxBy_eq_findQ ImageFile.mtime x xs).symm
  · have hsel : select_file_to_keep ("shortest-path") group
        = minBy ImageFile.path_depth group := by
      simp [select_file_to_keep]
    rw [hsel]
    cases group with
    | nil => rfl
    | cons x xs => exact (minBy_eq_findQ ImageFile.path_depth x xs).symm
  · intro s hs
    simp only [List.mem_cons, List.mem_singleton, not_or] at hs
    obtain ⟨h₁, h₂, h₃, h₄, h₅⟩ := hs
    simp [select_file_to_keep, h₁, h₂, h₃, h₄, h₅]

/-- C6, witness: an unknown strategy name on a concrete tied group falls
back to `largest`, and the tie goes to the first member. -/
theorem C6_witness :
    select_file_to_keep ("bogus") [imgP, imgA] = some imgP ∧
    select_file_to_keep ("largest") [imgP, imgA] = some imgP := by
  have h := C6_thm [imgP, imgA]
  have h₆ := h.2.2.2.2.2.1 ("bogus") (by decide)
  refine ⟨?_, ?_⟩
  · rw [h₆, h.1]
    decide
  · rw [h.1]
    decide

/-! ### Similarity grouping invariants -/

/-- One-step unfolding of the anchor loop on a nonempty candidate list. -/
theorem buildGroups_cons (T : ℚ) (n : Nat) (p : ImageFile × List Bool)
    (rest : List (ImageFile × List Bool)) :
    buildGroups T (n + 1) (p :: rest)
      = if 1 < (p.1 :: (rest.filter fun q =>
            decide ((hamming p.2 q.2 : ℚ) ≤ T)).map Prod.fst).length
        then (p.1 :: (rest.filter fun q =>
              decide ((hamming p.2 q.2 : ℚ) ≤ T)).map Prod.fst)
          :: buildGroups T n (rest.filter fun q =>
              !decide ((hamming p.2 q.2 : ℚ) ≤ T))
        else buildGroups T n (rest.filter fun q =>
            !decide ((hamming p.2 q.2 : ℚ) ≤ T)) := rfl

/-- Every member of every emitted group is the record of some keyed
candidate. -/
theorem buildGroups_members (T : ℚ) :
    ∀ (fuel : Nat) (l : List (ImageFile × List Bool)),
      ∀ g ∈ buildGroups T fuel l, ∀ x ∈ g, ∃ q ∈ l, x = q.1 := by
  intro fuel
  induction fuel with
  | zero =>
    intro l g hg
    cases l <;> simp [buildGroups] at hg
  | succ n ih =>
    intro l g hg
    cases l with
    | nil => simp [buildGroups] at hg
    | cons p rest =>
      rw [buildGroups_cons] at hg
      by_cases hcond : 1 < (p.1 :: (rest.filter fun q =>
          decide ((hamming p.2 q.2 : ℚ) ≤ T)).map Prod.fst).length
      · rw [if_pos hcond] at hg
        rcases List.mem_cons.mp hg with hg | hg
        · intro x hx
          rw [hg] at hx
          rcases List.mem_cons.mp hx with hx | hx
          · exact ⟨p, by simp, hx⟩
          · obtain ⟨c, hc, rfl⟩ := List.mem_map.mp hx
            exact ⟨c, List.mem_cons_of_mem _ (List.mem_of_mem_filter hc), rfl⟩
        · intro x hx
          obtain ⟨q, hq, rfl⟩ := ih _ g hg x hx
          exact ⟨q, List.mem_cons_of_mem _ (List.mem_of_mem_filter hq), rfl⟩
      · rw [if_neg hcond] at hg
        intro x hx
        obtain ⟨q, hq, rfl⟩ := ih _ g hg x hx
        exact ⟨q, List.mem_cons_of_mem _ (List.mem_of_mem_filter hq), rfl⟩

/-- Every emitted group has at least two members. -/
theorem buildGroups_two_le (T : ℚ) :
    ∀ (fuel : Nat) (l : List (ImageFile × List Bool)),
      ∀ g ∈ buildGroups T fuel l, 2 ≤ g.length := by
  intro fuel
  induction fuel with
  | zero =>
    intro l g hg
    cases l <;> simp [buildGroups] at hg
  | succ n ih =>
    intro l g hg
    cases l with
    | nil => simp [buildGroups] at hg
    | cons p rest =>
      rw [buildGroups_cons] at hg
      by_cases hcond : 1 < (p.1 :: (rest.filter fun q =>
          decide ((hamming p.2 q.2 : ℚ) ≤ T)).map Prod.fst).length
      · rw [if_pos hcond] at hg
        rcases List.mem_cons.mp hg with hg | hg
        · rw [hg]
          exact hcond
        · exact ih _ g hg
      · rw [if_neg hcond] at hg
        exact ih _ g hg

/-- Every emitted group consists of an anchor followed by candidates
taken from the input, each within threshold distance of the anchor. -/
theorem buildGroups_anchor (T : ℚ) :
    ∀ (fuel : Nat) (l : List (ImageFile × List Bool)),
      ∀ g ∈ buildGroups T fuel l,
        ∃ (p : ImageFile × List Bool) (close : List (ImageFile × List Bool)),
          p ∈ l ∧ g = p.1 :: close.map Prod.fst ∧
          ∀ c ∈ close, c ∈ l ∧ (hamming p.2 c.2 : ℚ) ≤ T := by
  intro fuel
  induction fuel with
  | zero =>
    intro l g hg
    cases l <;> simp [buildGroups] at hg
  | succ n ih =>
    intro l g hg
    cases l with
    | nil => simp [buildGroups] at hg
    | cons p rest =>
      rw [buildGroups_cons] at hg
      by_cases hcond : 1 < (p.1 :: (rest.filter fun q =>
          decide ((hamming p.2 q.2 : ℚ) ≤ T)).map Prod.fst).length
      · rw [if_pos hcond] at hg
        rcases List.mem_cons.mp hg with hg | hg
        · refine ⟨p, rest.filter fun q => decide ((hamming p.2 q.2 : ℚ) ≤ T),
            by simp, hg, ?_⟩
          intro c hc
          refine ⟨List.mem_cons_of_mem _ (List.mem_of_mem_filter hc), ?_⟩
          exact of_decide_eq_true (List.mem_filter.mp hc).2
        · obtain ⟨q, close, hql, hgf, hclose⟩ := ih _ g hg
          exact ⟨q, close, List.mem_cons_of_mem _ (List.mem_of_mem_filter hql),
            hgf, fun c hc => ⟨List.mem_cons_of_mem _
              (List.mem_of_mem_filter (hclose c hc).1), (hclose c hc).2⟩⟩
      · rw [if_neg hcond] at hg
        obtain ⟨q, close, hql, hgf, hclose⟩ := ih _ g hg
        exact ⟨q, close, List.mem_cons_of_mem _ (List.mem_of_mem_filter hql),
          hgf, fun c hc => ⟨List.mem_cons_of_mem _
            (List.mem_of_mem_filter (hclose c hc).1), (hclose c hc).2⟩⟩

/-- When the keyed candidates carry pairwise distinct records, the
emitted groups are pairwise disjoint and duplicate-free: their
concatenation has no repeats, so each record joins at most one group. -/
theorem buildGroups_flatten_nodup (T : ℚ) :
    ∀ (fuel : Nat) (l : List (ImageFile × List Bool)),
      (l.map Prod.fst).Nodup → ((buildGroups T fuel l).flatten).Nodup := by
  intro fuel
  induction fuel with
  | zero =>
    intro l _
    cases l <;> simp [buildGroups]
  | succ n ih =>
    intro l hl
    cases l with
    | nil => simp [buildGroups]
    | cons p rest =>
      rw [List.map_cons, List.nodup_cons] at hl
      have hfarnd : ((rest.filter fun q =>
          !decide ((hamming p.2 q.2 : ℚ) ≤ T)).map Prod.fst).Nodup :=
        hl.2.sublist ((List.filter_sublist rest).map Prod.fst)
      rw [buildGroups_cons]
      by_cases hcond : 1 < (p.1 :: (rest.filter fun q =>
          decide ((hamming p.2 q.2 : ℚ) ≤ T)).map Prod.fst).length
      · rw [if_pos hcond, List.flatten_cons, List.nodup_append]
        refine ⟨?_, ih _ hfarnd, ?_⟩
        · rw [List.nodup_cons]
          refine ⟨?_, hl.2.sublist ((List.filter_sublist rest).map Prod.fst)⟩
          intro hmem
          obtain ⟨c, hc, hc₁⟩ := List.mem_map.mp hmem
          exact hl.1 (hc₁ ▸ List.mem_map_of_mem Prod.fst
            (List.mem_of_mem_filter hc))
        · intro x hx hx₂
          obtain ⟨g₁, hg₁, hxg⟩ := List.mem_flatten.mp hx₂
          obtain ⟨q, hqfar, rfl⟩ := buildGroups_members T n _ g₁ hg₁ x hxg
          rcases List.mem_cons.mp hx with hx | hx
          · exact hl.1 (hx ▸ List.mem_map_of_mem Prod.fst
              (List.mem_of_mem_filter hqfar))
          · obtain ⟨c, hcclose, hc₁⟩ := List.mem_map.mp hx
            have hceq : c = q :=
              List.inj_on_of_nodup_map hl.2 (List.mem_of_mem_filter hcclose)
                (List.mem_of_mem_filter hqfar) hc₁
            have h₁ : decide ((hamming p.2 c.2 : ℚ) ≤ T) = true :=
              (List.mem_filter.mp hcclose).2
            have h₂ : (!decide ((hamming p.2 c.2 : ℚ) ≤ T)) = true := by
              rw [hceq]
              exact (List.mem_filter.mp hqfar).2
            rw [h₁] at h₂
            simp at h₂
      · rw [if_neg hcond]
        exact ih _ hfarnd

/-- Every keyed candidate's fingerprint is its record's (non-sentinel)
perceptual hash. -/
theorem keyedImages_phash (images : List ImageFile) :
    ∀ q ∈ keyedImages images, q.1.phash = some q.2 := by
  intro q hq
  simp only [keyedImages, List.mem_filterMap] at hq
  obtain ⟨i, _, hmap⟩ := hq
  cases hp : i.phash with
  | none =>
    rw [hp] at hmap
    simp at hmap
  | some fp =>
    rw [hp] at hmap
    have h₂ : some (i, fp) = some q := hmap
    obtain rfl := Option.some.inj h₂
    exact hp

/-- Every keyed candidate's record comes from the scan. -/
theorem keyedImages_fst_mem (images : List ImageFile) :
    ∀ q ∈ keyedImages images, q.1 ∈ images := by
  intro q hq
  simp only [keyedImages, List.mem_filterMap] at hq
  obtain ⟨i, hi, hmap⟩ := hq
  cases hp : i.phash with
  | none =>
    rw [hp] at hmap
    simp at hmap
  | some fp =>
    rw [hp] at hmap
    have h₂ : some (i, fp) = some q := hmap
    obtain rfl := Option.some.inj h₂
    exact hi

/-- A duplicate-free scan yields duplicate-free keyed candidates. -/
theorem keyedImages_fst_nodup (images : List ImageFile) (h : images.Nodup) :
    ((keyedImages images).map Prod.fst).Nodup := by
  induction images with
  | nil => simp [keyedImages]
  | cons i tl ih =>
    rw [List.nodup_cons] at h
    cases hp : i.phash with
    | none =>
      have hk : keyedImages (i :: tl) = keyedImages tl := by
        simp [keyedImages, List.filterMap_cons, hp]
      rw [hk]
      exact ih h.2
    | some fp =>
      have hk : keyedImages (i :: tl) = (i, fp) :: keyedImages tl := by
        simp [keyedImages, List.filterMap_cons, hp]
      rw [hk, List.map_cons, List.nodup_cons]
      refine ⟨?_, ih h.2⟩
      intro hmem
      obtain ⟨q, hq, hq₁⟩ := List.mem_map.mp hmem
      have hq₂ : q.1 = i := hq₁
      exact h.1 (hq₂ ▸ keyedImages_fst_mem tl q hq)

/-- C4: on any duplicate-free record list, every similarity group
contains only records with a valid perceptual hash (so a record carrying
the unavailable sentinel joins no group); every non-anchor member is
within threshold distance of the group's first member; the groups are
pairwise disjoint with no repeated member, so a record is assigned to at
most one group; and every emitted group has at least 2 members. -/
theorem C4_thm (T : ℚ) (images : List ImageFile) (hnd : images.Nodup) :
    (∀ g ∈ find_similar_images T images, ∀ m ∈ g, m.phash ≠ none) ∧
    (∀ g ∈ find_similar_images T images, ∃ a tl, g = a :: tl ∧
      ∀ m ∈ tl, ∃ fa fm, a.phash = some fa ∧ m.phash = some fm ∧
        (hamming fa fm : ℚ) ≤ T) ∧
    ((find_similar_images T images).flatten).Nodup ∧
    (∀ g ∈ find_similar_images T images, 2 ≤ g.length) := by
  refine ⟨?_, ?_, ?_, ?_⟩
  · intro g hg m hm
    obtain ⟨q, hq, rfl⟩ := buildGroups_members T _ _ g hg m hm
    rw [keyedImages_phash images q hq]
    simp
  · intro g hg
    obtain ⟨p, close, hpl, hgf, hclose⟩ := buildGroups_anchor T _ _ g hg
    refine ⟨p.1, close.map Prod.fst, hgf, ?_⟩
    intro m hm
    obtain ⟨c, hc, rfl⟩ := List.mem_map.mp hm
    exact ⟨p.2, c.2, keyedImages_phash images p hpl,
      keyedImages_phash images c (hclose c hc).1, (hclose c hc).2⟩
  · exact buildGroups_flatten_nodup T _ _ (keyedImages_fst_nodup images hnd)
  · exact buildGroups_two_le T _ _

/-- C4, witness: the invariants applied at a concrete duplicate-free
scan. -/
theorem C4_witness :
    ((find_similar_images (threshold 95) [imgA, imgB]).flatten).Nodup ∧
    (∀ g ∈ find_similar_images (threshold 95) [imgA, imgB], 2 ≤ g.length) := by
  have h := C4_thm (threshold 95) [imgA, imgB] (by decide)
  exact ⟨h.2.2.1, h.2.2.2⟩

/-! ### Automatic resolution accounting -/

/-- Unfolded form of the automatic workflow. -/
theorem process_duplicates_auto_eq (strategy : String)
    (yes dryRun userConfirms : Bool)
    (dups : List (String × List ImageFile)) (sims : List (List ImageFile))
    (st : FsState) :
    process_duplicates_auto strategy yes dryRun userConfirms dups sims st
      = if dups.length + sims.length = 0 then st
        else if (all_to_delete strategy dups sims).isEmpty then st
        else if !yes && !userConfirms then st
        else delete_files dryRun (all_to_delete strategy dups sims) st := rfl

/-- Removing one occurrence of a member from a duplicate-free list by
filtering shortens it by exactly one. -/
theorem length_filter_ne (g : List ImageFile) (k : ImageFile)
    (hnd : g.Nodup) (hk : k ∈ g) :
    (g.filter fun img => !(img == k)).length + 1 = g.length := by
  induction g with
  | nil => cases hk
  | cons x t ih =>
    rw [List.nodup_cons] at hnd
    by_cases hx : x = k
    · subst hx
      have hall : ∀ i ∈ t, (!(i == x)) = true := by
        intro i hi
        have hne : ¬(i = x) := fun he => hnd.1 (he ▸ hi)
        simp [hne]
      rw [List.filter_cons, if_neg (by simp), List.filter_eq_self.mpr hall,
        List.length_cons]
    · have hkt : k ∈ t := by
        rcases List.mem_cons.mp hk with h | h
        · exact absurd h.symm hx
        · exact h
      have hxk : (!(x == k)) = true := by simp [hx]
      rw [List.filter_cons, if_pos hxk, List.length_cons, List.length_cons,
        ← ih hnd.2 hkt]

/-- On a nonempty duplicate-free group, the per-group delete list holds
everything except the one kept record. -/
theorem group_to_delete_length (strategy : String) (g : List ImageFile)
    (hne : g ≠ []) (hnd : g.Nodup) :
    (group_to_delete strategy g).length = g.length - 1 := by
  cases g with
  | nil => exact absurd rfl hne
  | cons x xs =>
    obtain ⟨k, hk⟩ : ∃ k, select_file_to_keep strategy (x :: xs) = some k := by
      unfold select_file_to_keep
      split_ifs <;> exact ⟨_, rfl⟩
    have hkmem := select_file_to_keep_mem strategy (x :: xs) k hk
    have hlen := length_filter_ne (x :: xs) k hnd hkmem
    simp only [group_to_delete, hk]
    omega

/-- With nonempty duplicate-free groups, the accumulated delete list has
one entry fewer than each group, summed. -/
theorem all_to_delete_length (strategy : String)
    (dups : List (String × List ImageFile)) (sims : List (List ImageFile))
    (hg : ∀ g ∈ dups.map Prod.snd ++ sims, g ≠ [] ∧ g.Nodup) :
    (all_to_delete strategy dups sims).length
      = ((dups.map Prod.snd ++ sims).map fun g => g.length - 1).sum := by
  unfold all_to_delete
  rw [List.length_flatten, List.map_map]
  refine congrArg List.sum ?_
  refine List.map_congr_left fun g hgm => ?_
  exact group_to_delete_length strategy g (hg g hgm).1 (hg g hgm).2

/-- C8, counterexample: with full confirmation but a record shared
between an exact group and a similar group (same two records, same
content hash, same fingerprint), the real-run delete list holds that
record twice; the second removal fails, so `deleted_files` ends at 1
while the per-group sum of (size - 1) is 2. -/
theorem C8_counterexample :
    (process_duplicates_auto ("largest") true false true
        [(("h0"), [imgA, imgB])] [[imgA, imgB]] stZero).stats.deleted_files = 1 ∧
    ((([(("h0"), [imgA, imgB])].map Prod.snd ++ [[imgA, imgB]]).map
        fun g => g.length - 1).sum = 2) ∧
    (1 : Nat) ≠ 2 := by
  decide

/-- C8, amended: in automatic mode with full confirmation, the deleted
file counter advances by the sum over all resolved groups of
(group size - 1), provided every group is nonempty without repeated
members and every removal succeeds — which holds whenever dry-run is
set, or when the pending delete list has pairwise distinct paths that
are all present on disk.  (When a removal fails — e.g. a record queued
by both an exact and a similar group — the counter falls short and the
error counter advances instead.) -/
theorem C8_amended (strategy : String) (yes dryRun userConfirms : Bool)
    (dups : List (String × List ImageFile)) (sims : List (List ImageFile))
    (st : FsState)
    (hconf : yes = true ∨ userConfirms = true)
    (hg : ∀ g ∈ dups.map Prod.snd ++ sims, g ≠ [] ∧ g.Nodup)
    (hsucc : dryRun = true ∨
      (((all_to_delete strategy dups sims).map ImageFile.path).Nodup ∧
       ∀ f ∈ all_to_delete strategy dups sims, f.path ∈ st.disk)) :
    (process_duplicates_auto strategy yes dryRun userConfirms
        dups sims st).stats.deleted_files
      = st.stats.deleted_files
        + ((dups.map Prod.snd ++ sims).map fun g => g.length - 1).sum := by
  have hlen := all_to_delete_length strategy dups sims hg
  rw [process_duplicates_auto_eq]
  by_cases h₀ : dups.length + sims.length = 0
  · rw [if_pos h₀]
    have hd : dups = [] := List.length_eq_zero.mp (by omega)
    have hs : sims = [] := List.length_eq_zero.mp (by omega)
    subst hd
    subst hs
    simp
  · rw [if_neg h₀]
    by_cases hemp : (all_to_delete strategy dups sims).isEmpty
    · rw [if_pos hemp]
      have hnil : all_to_delete strategy dups sims = [] :=
        List.isEmpty_iff.mp hemp
      rw [hnil] at hlen
      simp only [List.length_nil] at hlen
      omega
    · rw [if_neg hemp]
      have hcond : (!yes && !userConfirms) = false := by
        rcases hconf with h | h <;> simp [h]
      simp only [hcond, Bool.false_eq_true, if_false]
      cases dryRun with
      | true => rw [delete_files_dry, hlen]
      | false =>
        rcases hsucc with hdry | hok
        · exact absurd hdry (by simp)
        · rw [(delete_files_real _ st hok.1 hok.2).1, hlen]

/-- C8 amended, witness: a dry run over one exact group of two records
counts exactly one deletion. -/
theorem C8_witness :
    (process_duplicates_auto ("largest") true true true
        [(("h0"), [imgA, imgB])] [] stZero).stats.deleted_files = 1 := by
  have h := C8_amended ("largest") true true true [(("h0"), [imgA, imgB])] []
    stZero (Or.inl rfl) (by decide) (Or.inl rfl)
  rw [h]
  decide

/-! ### Interactive resolution and the full run -/

/-- Driving the interactive loop over a concatenation threads the state
and the unconsumed replies through the first block, and an abort in the
first block abandons the second. -/
theorem processGroupsAux_append (dryRun : Bool)
    (gs₁ gs₂ : List (List ImageFile)) :
    ∀ (inputs : List Choice) (st : FsState),
      processGroupsAux dryRun (gs₁ ++ gs₂) inputs st
        = match processGroupsAux dryRun gs₁ inputs st with
          | (st₁, some rest) => processGroupsAux dryRun gs₂ rest st₁
          | (st₁, none) => (st₁, none) := by
  induction gs₁ with
  | nil =>
    intro inputs st
    simp [processGroupsAux]
  | cons g gs ih =>
    intro inputs st
    rw [List.cons_append]
    cases hpl : processGroupLoop dryRun g inputs st with
    | none => simp [processGroupsAux, hpl]
    | some pr =>
      obtain ⟨rest, st₁⟩ := pr
      simp [processGroupsAux, hpl, ih]

/-- C9: a `quit` reply at any group resolves the whole interactive
procedure immediately — the current group and every later group are left
untouched and the state stops at whatever the groups resolved before the
quit produced — and the run still reaches the summary report whenever
the scan was nonempty. -/
theorem C9_thm (dryRun : Bool) :
    (∀ (g : List ImageFile) (gs : List (List ImageFile))
        (inputs : List Choice) (st : FsState),
      processGroupsAux dryRun (g :: gs) (Choice.quit :: inputs) st
        = (st, none)) ∧
    (∀ (dups : List (String × List ImageFile))
        (sims gs₁ gs₂ : List (List ImageFile)) (g : List ImageFile)
        (inputs rest : List Choice) (st st₁ : FsState),
      dups.map Prod.snd ++ sims = gs₁ ++ g :: gs₂ →
      processGroupsAux dryRun gs₁ inputs st
        = (st₁, some (Choice.quit :: rest)) →
      process_duplicates_interactive dryRun dups sims inputs st = st₁) ∧
    (∀ (args : Args) (images : List ImageFile) (inputs : List Choice)
        (userConfirms : Bool) (st : FsState),
      images ≠ [] → (run args images inputs userConfirms st).2 = true) := by
  have hquit : ∀ (g : List ImageFile) (gs : List (List ImageFile))
      (inputs : List Choice) (st : FsState),
      processGroupsAux dryRun (g :: gs) (Choice.quit :: inputs) st
        = (st, none) := fun g gs inputs st => rfl
  refine ⟨hquit, ?_, ?_⟩
  · intro dups sims gs₁ gs₂ g inputs rest st st₁ hsplit hrun
    unfold process_duplicates_interactive
    have hlen : dups.length + sims.length
        = gs₁.length + (gs₂.length + 1) := by
      have h := congrArg List.length hsplit
      simpa [List.length_append] using h
    rw [if_neg (by omega), hsplit, processGroupsAux_append, hrun]
    show (processGroupsAux dryRun (g :: gs₂) (Choice.quit :: rest) st₁).1 = st₁
    rw [hquit g gs₂ rest st₁]
  · intro args images inputs userConfirms st hne
    have hE : images.isEmpty = false := by
      cases images with
      | nil => exact absurd rfl hne
      | cons a l => rfl
    unfold run
    simp [hE]

/-- C9, witness: three groups, a valid keep on the first and `quit` on
the second — the first group's deletion is applied, groups two and three
are untouched. -/
theorem C9_witness :
    process_duplicates_interactive true [(("h0"), [imgA, imgB])]
        [[imgA, imgQ], [imgP, imgQ]] [Choice.num 1, Choice.quit] stZero
      = delete_files true [imgB] stZero := by
  exact (C9_thm true).2.1 [(("h0"), [imgA, imgB])] [[imgA, imgQ], [imgP, imgQ]]
    [[imgA, imgB]] [[imgP, imgQ]] [imgA, imgQ] [Choice.num 1, Choice.quit] []
    stZero (delete_files true [imgB] stZero) (by decide) (by decide)

/-- Arguments of the C10 scenario, dry run: `--similar --similarity 95
--auto --keep largest --dry-run --yes`. -/
def argsDryTen : Args := ⟨true, 95, false, ("largest"), true, true⟩

/-- Arguments of the C10 scenario, real run: as `argsDryTen` without
`--dry-run`. -/
def argsRealTen : Args := ⟨true, 95, false, ("largest"), false, true⟩

/-- C10: `run` feeds the same record list to exact grouping and, when
`--similar` is set, to similarity grouping; on two records with equal
content hash and equal fingerprints, both groupers emit the same pair,
the automatic delete list holds the non-kept record twice, and so a dry
run counts 2 deleted files and twice its bytes for that one file, while
a real run deletes it once and counts the second attempt as an error. -/
theorem C10_thm :
    find_exact_duplicates [imgA, imgB] = [(("h0"), [imgA, imgB])] ∧
    find_similar_images (threshold 95) [imgA, imgB] = [[imgA, imgB]] ∧
    all_to_delete ("largest") [(("h0"), [imgA, imgB])] [[imgA, imgB]]
      = [imgB, imgB] ∧
    (run argsDryTen [imgA, imgB] [] true stZero).1.stats.deleted_files = 2 ∧
    (run argsDryTen [imgA, imgB] [] true stZero).1.stats.deleted_size
      = 2 * imgB.size ∧
    (run argsRealTen [imgA, imgB] [] true stZero).1.stats.deleted_files = 1 ∧
    (run argsRealTen [imgA, imgB] [] true stZero).1.stats.errors = 1 := by
  have hex : find_exact_duplicates [imgA, imgB] = [(("h0"), [imgA, imgB])] := by
    decide
  have hsim : find_similar_images (threshold 95) [imgA, imgB]
      = [[imgA, imgB]] := by
    refine (buildGroups_pair (threshold 95) imgA imgB fpZero fpZero rfl rfl).1 ?_
    have h₀ : hamming fpZero fpZero = 0 := by decide
    rw [h₀]
    norm_num [threshold]
  have hDry : run argsDryTen [imgA, imgB] [] true stZero
      = (process_duplicates_auto ("largest") true true true
          (find_exact_duplicates [imgA, imgB])
          (find_similar_images (threshold 95) [imgA, imgB])
          (dupStats (find_exact_duplicates [imgA, imgB]) stZero), true) := rfl
  have hReal : run argsRealTen [imgA, imgB] [] true stZero
      = (process_duplicates_auto ("largest") true false true
          (find_exact_duplicates [imgA, imgB])
          (find_similar_images (threshold 95) [imgA, imgB])
          (dupStats (find_exact_duplicates [imgA, imgB]) stZero), true) := rfl
  refine ⟨hex, hsim, by decide, ?_, ?_, ?_, ?_⟩
  · rw [hDry, hex, hsim]
    decide
  · rw [hDry, hex, hsim]
    decide
  · rw [hReal, hex, hsim]
    decide
  · rw [hReal, hex, hsim]
    decide
